import Mathlib

/-!
Shallow embedding of the XHS comment-scraper repository
(`xhs/code/xhs_comments_scraper.py`, `xhs/code/cookie_extractor.py`,
`xhs/xhs_comment_image_scraper.py`, `xhs/xhs_img_coze_workflow.py`,
`xhs/xhs_img_deal.py`).

Strings are modelled as `List Char` (Unicode code points).  The Python and
JavaScript sources measure string length in UTF-16 code units; the two
measures agree on all inputs appearing below except that an astral-plane
character (such as '👍') counts once here and twice in UTF-16.  None of the
verified properties sits on a boundary where that difference matters: every
concrete string stays on the same side of the `< 2`, `> 3`, `> 5`, `< 2000`
and `take 30` thresholds under both measures.
-/

namespace XHS

/-- Python's whitespace set used by `str.strip` / JS `String.prototype.trim`
(restricted to the ASCII whitespace characters, the only ones occurring in
the repository's inputs). -/
def isPySpace (c : Char) : Bool :=
  c = ' ' || c = '\t' || c = '\n' || c = '\r' || c = '\x0b' || c = '\x0c'

/-- Python `str.strip()` / JS `trim()`: drop leading and trailing whitespace. -/
def pyStrip (s : List Char) : List Char :=
  ((s.dropWhile isPySpace).reverse.dropWhile isPySpace).reverse

/-- Python `str.split(sep)` for a one-character separator: split on every
occurrence, keeping empty segments (`"".split(c) = [""]`). -/
def splitOn (sep : Char) : List Char → List (List Char)
  | [] => [[]]
  | c :: cs =>
    if c = sep then [] :: splitOn sep cs
    else
      match splitOn sep cs with
      | [] => [[c]]
      | seg :: rest => (c :: seg) :: rest

/-- JS `String.prototype.includes` / Python `in`: substring containment. -/
def containsSub (pat : List Char) : List Char → Bool
  | [] => pat.isEmpty
  | c :: cs => pat.isPrefixOf (c :: cs) || containsSub pat cs

/-- Python `pair.split('=', 1)`: split at the first `'='`; `none` when the
string has no `'='` (the scraper `continue`s in that case). -/
def splitFirstEq : List Char → Option (List Char × List Char)
  | [] => none
  | c :: cs =>
    if c = '=' then some ([], cs)
    else (splitFirstEq cs).map fun p => (c :: p.1, p.2)

/-- Python `'&'.join(parts)` (also used for the final `';'`-free joins). -/
def joinWith (sep : Char) : List (List Char) → List Char
  | [] => []
  | [p] => p
  | p :: ps => p ++ sep :: joinWith sep ps

/-!
## Scroll convergence driver

`scroll_and_load_comments` (`xhs/code/xhs_comments_scraper.py:265-320`, and the
identical copy at `xhs/code/cookie_extractor.py:337-392`) and
`scroll_and_expand` (`xhs/xhs_comment_image_scraper.py:28-53`) run the same
height loop; the only difference in the height logic is the stability
threshold (`stable_rounds >= 3` vs `>= 2`), so the loop body is shared here
with the threshold as a parameter.

The page is modelled by its height evolution `h : Nat → Nat`: `h 0` is the
height before any scrolling and `h k` the height after the `k`-th round's
scroll/click actions.  Round `k+1` therefore reads `curr_height = h k` and
`new_height = h (k+1)`.
-/

structure ScrollState where
  lastHeight : Nat
  stableRounds : Nat
  round : Nat
  deriving DecidableEq

/-- The body of the `for round_num in range(max_rounds)` loop.  `n` is the
number of rounds left in the budget, `i` the number of completed rounds,
`last`/`stable` the `last_height`/`stable_rounds` variables. -/
def scrollLoop (stableLimit : Nat) (h : Nat → Nat) :
    Nat → Nat → Nat → Nat → ScrollState
  | 0, i, last, stable => ⟨last, stable, i⟩
  | n + 1, i, last, stable =>
    if h (i + 1) = h i ∧ h i = last then
      if stableLimit ≤ stable + 1 then ⟨last, stable + 1, i + 1⟩
      else scrollLoop stableLimit h n (i + 1) last (stable + 1)
    else scrollLoop stableLimit h n (i + 1) (h (i + 1)) 0

/-- `scroll_and_load_comments` of the two comment scrapers: threshold 3. -/
def scroll_and_load_comments (h : Nat → Nat) (maxRounds : Nat) : ScrollState :=
  scrollLoop 3 h maxRounds 0 0 0

/-- `scroll_and_expand` of the image scraper: threshold 2. -/
def scroll_and_expand (h : Nat → Nat) (maxRounds : Nat) : ScrollState :=
  scrollLoop 2 h maxRounds 0 0 0

/-- Modelled from the spec's words, for comparison with the code (claim about
the `stableRounds` invariant): the counter resets to 0 exactly when the
height observed this round differs from the stored last height, increments
otherwise, and the driver stops at 3 consecutive stable rounds. -/
def specScrollLoop (h : Nat → Nat) : Nat → Nat → Nat → Nat → ScrollState
  | 0, i, last, stable => ⟨last, stable, i⟩
  | n + 1, i, last, stable =>
    if h (i + 1) = last then
      if 3 ≤ stable + 1 then ⟨last, stable + 1, i + 1⟩
      else specScrollLoop h n (i + 1) last (stable + 1)
    else specScrollLoop h n (i + 1) (h (i + 1)) 0

/-- The driver the spec describes, started like the code's. -/
def specConverge (h : Nat → Nat) (maxRounds : Nat) : ScrollState :=
  specScrollLoop h maxRounds 0 0 0

/-!
## Cascading record extractor (`extract_comments`, both comment scrapers)

The extraction JavaScript runs against the final DOM.  A DOM element is
modelled by the two attributes the candidate logic reads; the DOM itself by
the `querySelectorAll` answer function `q` and the pool returned by the
generic Tier-2 scan `document.querySelectorAll('div, section, article,
span, p')`.
-/

structure Elem where
  text : List Char
  className : List Char
  deriving DecidableEq

/-- The ordered Tier-1 selector list (`xhs_comments_scraper.py:336-347`). -/
def tier1Selectors : List (List Char) :=
  [ "[class*=\"comment\"]".data
  , "[class*=\"Comment\"]".data
  , "[data-testid*=\"comment\"]".data
  , ".comment-item".data
  , ".comment-list .comment".data
  , "[class*=\"note-comment\"]".data
  , "[class*=\"NoteComment\"]".data
  , "[class*=\"feed-comment\"]".data
  , "[class*=\"user-comment\"]".data
  , "[class*=\"interaction\"]".data ]

/-- The Tier-2 content-signature filter (`xhs_comments_scraper.py:379-392`). -/
def tier2Keep (e : Elem) : Bool :=
  decide (5 < e.text.length) && decide (e.text.length < 2000) &&
    (containsSub "comment".data (e.className.map Char.toLower)
      || containsSub "回复".data e.text
      || containsSub "点赞".data e.text
      || containsSub "❤️".data e.text
      || containsSub "👍".data e.text
      || containsSub "分钟前".data e.text
      || containsSub "小时前".data e.text
      || containsSub "天前".data e.text
      || containsSub "刚刚".data e.text)

/-- The selector loop: the first selector with a non-empty match wins
(`break`); an empty answer for every selector leaves `commentElements`
empty. -/
def firstTierMatch (q : List Char → List Elem) : List (List Char) → List Elem
  | [] => []
  | s :: ss => if q s = [] then firstTierMatch q ss else q s

/-- Candidate selection: Tier-1 cascade, Tier-2 fallback only when every
Tier-1 selector matched zero elements. -/
def candidateElements (q : List Char → List Elem) (generic : List Elem) :
    List Elem :=
  if firstTierMatch q tier1Selectors = [] then generic.filter tier2Keep
  else firstTierMatch q tier1Selectors

/-- Per-candidate filter (`xhs_comments_scraper.py:411-423`): trim, then drop
short texts and UI-chrome labels; a surviving candidate's trimmed text is the
record's content. -/
def chromeFiltered (t : List Char) : Option (List Char) :=
  let s := pyStrip t
  if s.length < 2
      ∨ containsSub "展开更多".data s
      ∨ containsSub "查看全部".data s
      ∨ s = "评论".data
      ∨ s = "点赞".data
      ∨ s = "回复".data
      ∨ containsSub "登录".data s
      ∨ containsSub "注册".data s
  then none else some s

/-- The per-candidate pass over the candidate texts, in traversal order. -/
def parseCandidates (texts : List (List Char)) : List (List Char) :=
  texts.filterMap chromeFiltered

/-- The dedup loop (`xhs_comments_scraper.py:474-484`): key = first 30
characters of the content, a record survives when its key is unseen and its
content is longer than 3; only then is the key added to the seen set.
Polymorphic in the record type, as the code keeps whole comment objects. -/
def dedupLoop {α : Type} (content : α → List Char) :
    List (List Char) → List α → List α
  | _, [] => []
  | seen, r :: rs =>
    if (content r).take 30 ∉ seen ∧ 3 < (content r).length then
      r :: dedupLoop content ((content r).take 30 :: seen) rs
    else dedupLoop content seen rs

/-- Modelled from the spec's words, for comparison with the code (dedup
claim): keep a record exactly when its content is longer than 3 and it is
the first record in traversal order bearing its first-30-character key;
`prevKeys` collects the keys of all earlier records. -/
def specDedup {α : Type} (content : α → List Char) :
    List (List Char) → List α → List α
  | _, [] => []
  | prevKeys, r :: rs =>
    if 3 < (content r).length ∧ (content r).take 30 ∉ prevKeys then
      r :: specDedup content ((content r).take 30 :: prevKeys) rs
    else specDedup content ((content r).take 30 :: prevKeys) rs

/-- The extraction pipeline on candidate texts: per-candidate filtering, then
dedup with the `> 3` length filter.  Records are represented by their
contents. -/
def extractPipeline (texts : List (List Char)) : List (List Char) :=
  dedupLoop id [] (parseCandidates texts)

/-!
## Exception path of a scrape (`scrape_comments`, `scroll_and_load_comments`)

The two `page.evaluate` height reads and the scroll inside the round body
run outside any `try`; only the button clicking is wrapped.  An exception
there unwinds out of `scroll_and_load_comments` into the single `try` that
wraps the whole of `scrape_comments`, whose handler returns `[]`.  A read is
modelled as `Option Nat`, `none` meaning the evaluate call raised.
-/

def scrollLoopE (stableLimit : Nat) (h : Nat → Option Nat) :
    Nat → Nat → Nat → Nat → Except Unit ScrollState
  | 0, i, last, stable => .ok ⟨last, stable, i⟩
  | n + 1, i, last, stable =>
    match h i, h (i + 1) with
    | some curr, some newH =>
      if newH = curr ∧ curr = last then
        if stableLimit ≤ stable + 1 then .ok ⟨last, stable + 1, i + 1⟩
        else scrollLoopE stableLimit h n (i + 1) last (stable + 1)
      else scrollLoopE stableLimit h n (i + 1) newH 0
    | _, _ => .error ()

/-- `scrape_comments` after a successful navigation: scroll phase, then
extraction over the final DOM (whose candidate texts are `domTexts`).  Any
exception escaping the scroll loop is caught by the function-level handler,
which returns `[]` without running the extractor. -/
def scrape_comments (h : Nat → Option Nat) (maxRounds : Nat)
    (domTexts : List (List Char)) : List (List Char) :=
  match scrollLoopE 3 h maxRounds 0 0 0 with
  | .error _ => []
  | .ok _ => extractPipeline domTexts

/-!
## Session preparer

`parse_cookie_string` (`xhs/code/cookie_extractor.py:35-83`) and the
cookie-file validation loop of `load_cookies`
(`xhs/code/cookie_extractor.py:137-168`, `xhs/code/xhs_comments_scraper.py:
72-96`).  `now` stands for `int(time.time())` at the call.
-/

structure SessionCookie where
  name : List Char
  value : List Char
  domain : List Char
  path : List Char
  httpOnly : Bool
  secure : Bool
  sameSite : List Char
  expires : Nat
  deriving DecidableEq

def httpOnlyNames : List (List Char) :=
  ["web_session".data, "a1".data, "websectiga".data]

/-- The cookie object built for one `name=value` pair
(`cookie_extractor.py:56-73`). -/
def mkStringCookie (now : Nat) (name value : List Char) : SessionCookie :=
  { name := name
  , value := value
  , domain := ".xiaohongshu.com".data
  , path := "/".data
  , httpOnly := httpOnlyNames.contains name
  , secure := true
  , sameSite := "Lax".data
  , expires := now + 24 * 60 * 60 }

/-- `parse_cookie_string`: `None` on an empty string; otherwise split on
`';'`, strip each segment, keep the non-empty ones, skip segments without
`'='`, split the rest at the first `'='` and strip name and value. -/
def parse_cookie_string (now : Nat) (s : List Char) :
    Option (List SessionCookie) :=
  if s = [] then none
  else
    some ((((splitOn ';' s).map pyStrip).filter (· ≠ [])).filterMap
      fun pair => (splitFirstEq pair).map
        fun nv => mkStringCookie now (pyStrip nv.1) (pyStrip nv.2))

/-- The `';'`-joined image of a pair list, the well-formed cookie-string
shape `name=value;name2=value2`. -/
def encodePairs : List (List Char × List Char) → List Char
  | [] => []
  | [p] => p.1 ++ '=' :: p.2
  | p :: q :: rest => p.1 ++ '=' :: p.2 ++ ';' :: encodePairs (q :: rest)

/-- A JSON cookie record as far as `load_cookies` inspects it: which of the
relevant keys are present, and their values. -/
structure RawDict where
  name : Option (List Char)
  value : Option (List Char)
  domain : Option (List Char)
  path : Option (List Char)
  expires : Option Nat
  maxAge : Option Nat
  deriving DecidableEq

/-- An entry of the decoded cookie array: a JSON object or something else
(`isinstance(cookie, dict)` fails on the latter). -/
inductive RawRecord where
  | dict (d : RawDict)
  | nondict
  deriving DecidableEq

/-- Default filling for a record that has both `name` and `value`
(`cookie_extractor.py:141-151`). -/
def fillDefaults (now : Nat) (d : RawDict) : RawDict :=
  { d with
    domain := some (d.domain.getD ".xiaohongshu.com".data)
  , path := some (d.path.getD "/".data)
  , expires :=
      if d.expires = none ∧ d.maxAge = none then some (now + 24 * 60 * 60)
      else d.expires }

/-- One iteration of the validation loop: a dict with both `name` and
`value` is filled and kept, anything else is skipped. -/
def validRecord (now : Nat) : RawRecord → Option RawDict
  | .dict d => if d.name.isSome ∧ d.value.isSome then some (fillDefaults now d)
               else none
  | .nondict => none

/-- The `valid_cookies` accumulation loop (`cookie_extractor.py:138-153`). -/
def validateLoop (now : Nat) : List RawRecord → List RawDict
  | [] => []
  | r :: rs =>
    match validRecord now r with
    | some d => d :: validateLoop now rs
    | none => validateLoop now rs

/-- `load_cookies` on a file whose JSON decodes to a bare cookie array
(`cookies = data`): `if not cookies: return None`, then the validation
loop. -/
def load_cookies_list (now : Nat) (records : List RawRecord) :
    Option (List RawDict) :=
  if records = [] then none else some (validateLoop now records)

/-!
## URL query rewriter (`convert_url`, identical in `xhs/xhs_img_coze_workflow.py`
and `xhs/xhs_img_deal.py`)

A URL is modelled as the `urlsplit` five-tuple; `convert_url` rebuilds it
with `urlunsplit((sp.scheme, sp.netloc, sp.path, q2, sp.fragment))`.
-/

structure UrlSplit where
  scheme : List Char
  netloc : List Char
  path : List Char
  query : List Char
  fragment : List Char
  deriving DecidableEq

/-- `_normalize_fmt`: lowercase, strip, map `jpeg` to `jpg`, reject anything
but `jpg`/`png` (a raised `ValueError` is the `.error` case). -/
def normalize_fmt (fmt : List Char) : Except Unit (List Char) :=
  let f := pyStrip (fmt.map Char.toLower)
  if f = "jpeg".data then .ok "jpg".data
  else if f = "jpg".data ∨ f = "png".data then .ok f
  else .error ()

/-- `path.rsplit('/', 1)[-1]`: the part after the last `'/'`. -/
def lastPathSegment (path : List Char) : List Char :=
  (path.reverse.takeWhile (· ≠ '/')).reverse

/-- `_derive_basename_from_path`: the last path segment up to the first
`'!'` (the whole segment when it has none). -/
def derive_basename_from_path (path : List Char) : List Char :=
  (lastPathSegment path).takeWhile (· ≠ '!')

/-- `seg.rstrip('/')`. -/
def rstripSlash (s : List Char) : List Char :=
  (s.reverse.dropWhile (· = '/')).reverse

/-- `re.sub(r'/format/[^/&?]*', '/format/' + fmt, seg, count=1)`: replace the
first occurrence of `/format/` and the following run of characters outside
`/&?`. -/
def reSubFormat (fmt : List Char) : List Char → List Char
  | [] => []
  | c :: cs =>
    if "/format/".data.isPrefixOf (c :: cs) then
      "/format/".data ++ fmt ++
        ((c :: cs).drop 8).dropWhile fun d => !(d = '/' || d = '&' || d = '?')
    else c :: reSubFormat fmt cs

/-- The rewrite of an existing `imageMogr2` query segment. -/
def mogrNewSeg (fmt seg : List Char) : List Char :=
  if containsSub "/format/".data seg then reSubFormat fmt seg
  else rstripSlash seg ++ "/format/".data ++ fmt

/-- Rewrite the first part starting with `imageMogr2`; `none` when there is
no such part. -/
def replaceFirstMogr (fmt : List Char) :
    List (List Char) → Option (List (List Char))
  | [] => none
  | p :: ps =>
    if "imageMogr2".data.isPrefixOf p then some (mogrNewSeg fmt p :: ps)
    else (replaceFirstMogr fmt ps).map (p :: ·)

/-- `_set_format_in_query`. -/
def set_format_in_query (q fmt : List Char) : List Char :=
  let parts := (splitOn '&' q).filter (· ≠ [])
  match replaceFirstMogr fmt parts with
  | none => joinWith '&' (parts ++ ["imageMogr2/format/".data ++ fmt])
  | some ps => joinWith '&' ps

/-- UTF-8 bytes of a code point (Python `quote` encodes the UTF-8 form). -/
def utf8Bytes (c : Char) : List Nat :=
  let n := c.toNat
  if n < 0x80 then [n]
  else if n < 0x800 then [0xC0 + n / 0x40, 0x80 + n % 0x40]
  else if n < 0x10000 then
    [0xE0 + n / 0x1000, 0x80 + n / 0x40 % 0x40, 0x80 + n % 0x40]
  else
    [0xF0 + n / 0x40000, 0x80 + n / 0x1000 % 0x40, 0x80 + n / 0x40 % 0x40,
      0x80 + n % 0x40]

def hexDigit (n : Nat) : Char :=
  if n < 10 then Char.ofNat (48 + n) else Char.ofNat (55 + n)

/-- `urllib.parse.quote(filename, safe='')`: percent-encode every byte whose
character is not an ASCII alphanumeric or one of `_.-~`. -/
def pyQuote (s : List Char) : List Char :=
  s.flatMap fun c =>
    if c.isAlphanum || c = '_' || c = '.' || c = '-' || c = '~' then [c]
    else (utf8Bytes c).flatMap fun b => ['%', hexDigit (b / 16), hexDigit (b % 16)]

/-- Replace the first part starting with `attname=`; `none` when absent. -/
def replaceFirstAttname (enc : List Char) :
    List (List Char) → Option (List (List Char))
  | [] => none
  | p :: ps =>
    if "attname=".data.isPrefixOf p then some (enc :: ps)
    else (replaceFirstAttname enc ps).map (p :: ·)

/-- `_set_attname_in_query`. -/
def set_attname_in_query (q filename : List Char) : List Char :=
  let parts := (splitOn '&' q).filter (· ≠ [])
  let enc := "attname=".data ++ pyQuote filename
  match replaceFirstAttname enc parts with
  | none => joinWith '&' (parts ++ [enc])
  | some ps => joinWith '&' ps

/-- `convert_url`: normalize the format (may raise), derive the expected
download name (`not filename` is true for `None` and for the empty string),
rewrite the query, and reassemble with the original scheme, netloc, path and
fragment. -/
def convert_url (u : UrlSplit) (fmt : List Char)
    (filename : Option (List Char)) : Except Unit UrlSplit :=
  match normalize_fmt fmt with
  | .error e => .error e
  | .ok f =>
    let base := derive_basename_from_path u.path
    let expectName :=
      match filename with
      | none => base ++ '.' :: f
      | some nm => if nm = [] then base ++ '.' :: f else nm
    let q1 := set_format_in_query u.query f
    let q2 := set_attname_in_query q1 expectName
    .ok ⟨u.scheme, u.netloc, u.path, q2, u.fragment⟩

theorem pyStrip_eq_self {s : List Char} (h : ∀ c ∈ s, isPySpace c = false) :
    pyStrip s = s := by
  have h1 : s.dropWhile isPySpace = s := by
    cases s with
    | nil => rfl
    | cons c cs =>
      rw [List.dropWhile_cons_of_neg]
      simp [h c (by simp)]
  have h2 : s.reverse.dropWhile isPySpace = s.reverse := by
    cases hs : s.reverse with
    | nil => rfl
    | cons c cs =>
      rw [List.dropWhile_cons_of_neg]
      have : c ∈ s := by
        have : c ∈ s.reverse := by rw [hs]; simp
        simpa using this
      simp [h c this]
  unfold pyStrip
  rw [h1, h2, List.reverse_reverse]

theorem splitOn_of_not_mem {sep : Char} {s : List Char}
    (h : ∀ c ∈ s, c ≠ sep) : splitOn sep s = [s] := by
  induction s with
  | nil => rfl
  | cons c cs ih =>
    unfold splitOn
    rw [if_neg (h c (by simp))]
    rw [ih fun d hd => h d (by simp [hd])]

theorem splitOn_append {sep : Char} {seg rest : List Char}
    (h : ∀ c ∈ seg, c ≠ sep) :
    splitOn sep (seg ++ sep :: rest) = seg :: splitOn sep rest := by
  induction seg with
  | nil => simp [splitOn]
  | cons c cs ih =>
    have hc : c ≠ sep := h c (by simp)
    have ih' := ih fun d hd => h d (by simp [hd])
    simp only [List.cons_append, splitOn, List.append_eq]
    rw [if_neg hc, ih']

theorem splitFirstEq_append {n v : List Char} (h : ∀ c ∈ n, c ≠ '=') :
    splitFirstEq (n ++ '=' :: v) = some (n, v) := by
  induction n with
  | nil => simp [splitFirstEq]
  | cons c cs ih =>
    have hc : c ≠ '=' := h c (by simp)
    have ih' := ih fun d hd => h d (by simp [hd])
    simp only [List.cons_append, splitFirstEq, List.append_eq]
    rw [if_neg hc, ih']
    rfl

/-! ## Scroll driver lemmas -/

theorem scrollLoop_succ (limit : Nat) (h : Nat → Nat) (n i last stable : Nat) :
    scrollLoop limit h (n + 1) i last stable =
      if h (i + 1) = h i ∧ h i = last then
        (if limit ≤ stable + 1 then ⟨last, stable + 1, i + 1⟩
         else scrollLoop limit h n (i + 1) last (stable + 1))
      else scrollLoop limit h n (i + 1) (h (i + 1)) 0 := rfl

theorem scrollLoop_round_le (limit : Nat) (h : Nat → Nat) :
    ∀ n i last stable, (scrollLoop limit h n i last stable).round ≤ i + n := by
  intro n
  induction n with
  | zero => intro i last stable; simp [scrollLoop]
  | succ n ih =>
    intro i last stable
    rw [scrollLoop_succ]
    split
    · split
      · show i + 1 ≤ i + (n + 1)
        omega
      · have := ih (i + 1) last (stable + 1); omega
    · have := ih (i + 1) (h (i + 1)) 0; omega

theorem scrollLoop_growing (limit : Nat) (h : Nat → Nat)
    (hg : ∀ k, h k < h (k + 1)) :
    ∀ n i last, (scrollLoop limit h n i last 0).round = i + n ∧
      (scrollLoop limit h n i last 0).stableRounds = 0 := by
  intro n
  induction n with
  | zero => intro i last; simp [scrollLoop]
  | succ n ih =>
    intro i last
    rw [scrollLoop_succ]
    have hne : ¬ (h (i + 1) = h i ∧ h i = last) := by
      intro hcontra
      exact absurd hcontra.1 (Nat.ne_of_gt (hg i))
    rw [if_neg hne]
    have := ih (i + 1) (h (i + 1))
    exact ⟨by omega, this.2⟩

theorem scrollLoop_const (limit : Nat) (h : Nat → Nat) :
    ∀ n i last stable, (∀ j, i ≤ j → h j = last) → stable < limit →
      limit - stable ≤ n →
      scrollLoop limit h n i last stable = ⟨last, limit, i + (limit - stable)⟩ := by
  intro n
  induction n with
  | zero => intro i last stable _ h1 h2; omega
  | succ n ih =>
    intro i last stable hconst h1 h2
    rw [scrollLoop_succ]
    have hcond : h (i + 1) = h i ∧ h i = last :=
      ⟨(hconst (i + 1) (by omega)).trans (hconst i (by omega)).symm,
        hconst i (by omega)⟩
    rw [if_pos hcond]
    by_cases hb : limit ≤ stable + 1
    · rw [if_pos hb]
      have hlim : limit = stable + 1 := by omega
      subst hlim
      have hone : stable + 1 - stable = 1 := by omega
      rw [hone]
    · rw [if_neg hb]
      rw [ih (i + 1) last (stable + 1) (fun j hj => hconst j (by omega))
        (by omega) (by omega)]
      have harith : i + 1 + (limit - (stable + 1)) = i + (limit - stable) := by
        omega
      rw [harith]

/-- The single trace invariant of the height loop: the counter stays under
its threshold until the loop breaks, the loop ends either with the counter
at the threshold or with the budget used up, and when it ends at the
threshold the observed heights were unchanged over that many consecutive
rounds. -/
theorem scrollLoop_inv (limit : Nat) (h : Nat → Nat) :
    ∀ n i last stable,
      (last = if i = 0 then 0 else h i) →
      stable ≤ i →
      (∀ j, 1 ≤ j → i - stable ≤ j → j ≤ i → h j = last) →
      (0 < i → stable = i → h 0 = last) →
      stable < limit →
      (scrollLoop limit h n i last stable).stableRounds ≤ limit ∧
      ((scrollLoop limit h n i last stable).stableRounds = limit ∨
        (scrollLoop limit h n i last stable).round = i + n) ∧
      ((scrollLoop limit h n i last stable).stableRounds = limit →
        limit ≤ (scrollLoop limit h n i last stable).round ∧
        ∀ j, (scrollLoop limit h n i last stable).round - limit ≤ j →
          j ≤ (scrollLoop limit h n i last stable).round →
          h j = h (scrollLoop limit h n i last stable).round) := by
  intro n
  induction n with
  | zero =>
    intro i last stable _ _ _ _ hlt
    refine ⟨by simpa [scrollLoop] using Nat.le_of_lt hlt, Or.inr (by simp [scrollLoop]), ?_⟩
    intro habs
    simp [scrollLoop] at habs
    omega
  | succ n ih =>
    intro i last stable hlast hsi hrun h0run hlt
    rw [scrollLoop_succ]
    by_cases hcond : h (i + 1) = h i ∧ h i = last
    · rw [if_pos hcond]
      have hlastval : h (i + 1) = last := hcond.1.trans hcond.2
      by_cases hb : limit ≤ stable + 1
      · rw [if_pos hb]
        have hlim : limit = stable + 1 := by omega
        refine ⟨by show stable + 1 ≤ limit; omega,
          Or.inl (by show stable + 1 = limit; omega), ?_⟩
        intro _
        constructor
        · show limit ≤ i + 1
          omega
        · intro j hj1 hj2
          simp only at hj1 hj2 ⊢
          rw [hlastval]
          rcases Nat.eq_or_lt_of_le hj2 with hj | hj
          · rw [hj]
            exact hlastval
          · have hji : j ≤ i := by omega
            rcases Nat.eq_zero_or_pos j with hj0 | hjpos
            · subst hj0
              have hstef : stable = i := by omega
              rcases Nat.eq_zero_or_pos i with hi0 | hipos
              · subst hi0
                exact hcond.2
              · exact h0run hipos hstef
            · exact hrun j hjpos (by omega) hji
      · rw [if_neg hb]
        have hlast' : last = if i + 1 = 0 then 0 else h (i + 1) := by
          simp [hlastval]
        have hrun' : ∀ j, 1 ≤ j → i + 1 - (stable + 1) ≤ j → j ≤ i + 1 →
            h j = last := by
          intro j hj1 hj2 hj3
          rcases Nat.eq_or_lt_of_le hj3 with hj | hj
          · rw [hj]
            exact hlastval
          · exact hrun j hj1 (by omega) (by omega)
        have h0run' : 0 < i + 1 → stable + 1 = i + 1 → h 0 = last := by
          intro _ hst
          have hstef : stable = i := by omega
          rcases Nat.eq_zero_or_pos i with hi0 | hipos
          · subst hi0
            exact hcond.2
          · exact h0run hipos hstef
        have H := ih (i + 1) last (stable + 1) hlast' (by omega) hrun' h0run'
          (by omega)
        refine ⟨H.1, ?_, H.2.2⟩
        rcases H.2.1 with hc | hc
        · exact Or.inl hc
        · right
          omega
    · rw [if_neg hcond]
      have hlast' : h (i + 1) = if i + 1 = 0 then 0 else h (i + 1) := by simp
      have hrun' : ∀ j, 1 ≤ j → i + 1 - 0 ≤ j → j ≤ i + 1 →
          h j = h (i + 1) := by
        intro j hj1 hj2 hj3
        have : j = i + 1 := by omega
        rw [this]
      have H := ih (i + 1) (h (i + 1)) 0 hlast' (by omega) hrun'
        (by intro _ hst; omega) (by omega)
      refine ⟨H.1, ?_, H.2.2⟩
      rcases H.2.1 with hc | hc
      · exact Or.inl hc
      · right
        omega

/-! ## Claim C2 -/

/-- C2 — corrected.  For every simulated height evolution starting at 100
and reaching 250 on the first round's scroll, staying at 250 afterwards
(the per-round height sequence `[100, 250, 250, 250]`), and any round
budget `≥ 5`: `scroll_and_load_comments` terminates by stability at round 4
with 3 stable rounds, strictly inside the budget; `scroll_and_expand`, whose
stability threshold is 2, instead terminates at round 3 with 2 stable
rounds. -/
theorem c2_theorem (h : Nat → Nat) (mr : Nat) (h100 : h 0 = 100)
    (h250 : ∀ k, h (k + 1) = 250) (hmr : 5 ≤ mr) :
    scroll_and_load_comments h mr = ⟨250, 3, 4⟩ ∧
    scroll_and_expand h mr = ⟨250, 2, 3⟩ ∧ 4 < mr := by
  obtain ⟨m, rfl⟩ : ∃ m, mr = m + 1 := ⟨mr - 1, by omega⟩
  have hconst : ∀ j, 1 ≤ j → h j = 250 := by
    intro j hj
    obtain ⟨k, rfl⟩ : ∃ k, j = k + 1 := ⟨j - 1, by omega⟩
    exact h250 k
  have hne : ¬ (h (0 + 1) = h 0 ∧ h 0 = 0) := by
    rw [h100, h250 0]; omega
  refine ⟨?_, ?_, by omega⟩
  · rw [scroll_and_load_comments, scrollLoop_succ, if_neg hne, h250 0]
    rw [scrollLoop_const 3 h m 1 250 0 (fun j hj => hconst j hj) (by omega)
      (by omega)]
  · rw [scroll_and_expand, scrollLoop_succ, if_neg hne, h250 0]
    rw [scrollLoop_const 2 h m 1 250 0 (fun j hj => hconst j hj) (by omega)
      (by omega)]

/-- Witness for C2's theorem at the concrete simulated sequence and the
image scraper's default budget of 20 rounds. -/
theorem c2_witness :
    scroll_and_load_comments (fun k => if k = 0 then 100 else 250) 20 =
      ⟨250, 3, 4⟩ ∧
    scroll_and_expand (fun k => if k = 0 then 100 else 250) 20 = ⟨250, 2, 3⟩ := by
  have := c2_theorem (fun k => if k = 0 then 100 else 250) 20 rfl
    (fun k => rfl) (by omega)
  exact ⟨this.1, this.2.1⟩

/-- C2 — counterexample to the claim as stated: the image scraper's
`scroll_and_expand` is one of the two cited convergence drivers, and on the
simulated sequence `[100, 250, 250, 250]` it terminates at round 3, not
round 4. -/
theorem c2_counterexample :
    (scroll_and_expand (fun k => if k = 0 then 100 else 250) 20).round = 3 ∧
    (scroll_and_expand (fun k => if k = 0 then 100 else 250) 20).round ≠ 4 := by
  constructor <;> decide

/-! ## Claim C3 -/

/-- C3 — counterexample to the claim as stated.  First: the counter does not
reset merely on `currentHeight ≠ lastHeight` — the code also compares the
pre-scroll reading.  On the height evolution `100, 0, 0, …` the code's
driver needs 4 rounds (round 1 resets because the pre-scroll reading 100
differs), while a driver following the claimed reset rule stops at round 3.
Second: `scroll_and_expand` stops by stability after only 2 consecutive
unchanged rounds, not 3. -/
theorem c3_counterexample :
    (scroll_and_load_comments (fun k => if k = 0 then 100 else 0) 30).round = 4 ∧
    (specConverge (fun k => if k = 0 then 100 else 0) 30).round = 3 ∧
    (scroll_and_expand (fun _ => 0) 20).stableRounds = 2 ∧
    (scroll_and_expand (fun _ => 0) 20).round = 2 := by
  refine ⟨?_, ?_, ?_, ?_⟩ <;> decide

/-- C3 — amended.  The counter increments exactly on rounds where the
post-scroll height equals both the pre-scroll height and the stored last
height, and resets to 0 otherwise (first conjunct, the loop unfolding); for
every height evolution the driver's final counter never exceeds its
threshold — 3 in `scroll_and_load_comments` but 2 in `scroll_and_expand` —
the driver ends either with the counter at the threshold or with the budget
exhausted, and when it ends at the threshold the observed height was
unchanged over that many consecutive rounds. -/
theorem c3_theorem (h : Nat → Nat) (mr : Nat) :
    (∀ n i last stable,
      scrollLoop 3 h (n + 1) i last stable =
        if h (i + 1) = h i ∧ h i = last then
          (if 3 ≤ stable + 1 then ⟨last, stable + 1, i + 1⟩
           else scrollLoop 3 h n (i + 1) last (stable + 1))
        else scrollLoop 3 h n (i + 1) (h (i + 1)) 0) ∧
    (scroll_and_load_comments h mr).stableRounds ≤ 3 ∧
    ((scroll_and_load_comments h mr).stableRounds = 3 ∨
      (scroll_and_load_comments h mr).round = mr) ∧
    ((scroll_and_load_comments h mr).stableRounds = 3 →
      3 ≤ (scroll_and_load_comments h mr).round ∧
      ∀ j, (scroll_and_load_comments h mr).round - 3 ≤ j →
        j ≤ (scroll_and_load_comments h mr).round →
        h j = h (scroll_and_load_comments h mr).round) ∧
    (scroll_and_expand h mr).stableRounds ≤ 2 ∧
    ((scroll_and_expand h mr).stableRounds = 2 ∨
      (scroll_and_expand h mr).round = mr) ∧
    ((scroll_and_expand h mr).stableRounds = 2 →
      2 ≤ (scroll_and_expand h mr).round ∧
      ∀ j, (scroll_and_expand h mr).round - 2 ≤ j →
        j ≤ (scroll_and_expand h mr).round →
        h j = h (scroll_and_expand h mr).round) := by
  have H3 := scrollLoop_inv 3 h mr 0 0 0 (by simp) (by omega)
    (by intro j hj1 hj2 hj3; omega) (by intro hi _; omega) (by omega)
  have H2 := scrollLoop_inv 2 h mr 0 0 0 (by simp) (by omega)
    (by intro j hj1 hj2 hj3; omega) (by intro hi _; omega) (by omega)
  refine ⟨fun n i last stable => rfl, H3.1, ?_, H3.2.2, H2.1, ?_, H2.2.2⟩
  · rcases H3.2.1 with hc | hc
    · exact Or.inl hc
    · right
      show (scrollLoop 3 h mr 0 0 0).round = mr
      omega
  · rcases H2.2.1 with hc | hc
    · exact Or.inl hc
    · right
      show (scrollLoop 2 h mr 0 0 0).round = mr
      omega

/-- Witness for C3's amended theorem at a concrete height evolution. -/
theorem c3_witness :
    (scroll_and_load_comments (fun _ => 7) 10).stableRounds ≤ 3 ∧
    (scroll_and_expand (fun _ => 7) 10).stableRounds ≤ 2 :=
  ⟨(c3_theorem (fun _ => 7) 10).2.1, (c3_theorem (fun _ => 7) 10).2.2.2.2.1⟩

/-! ## Claim C4 -/

/-- C4 — confirmed.  On every height evolution that strictly grows on each
round both drivers exhaust the round budget with the stable counter still 0
(in particular `< 3`), and on every height evolution whatsoever both
drivers execute at most `maxRounds` rounds. -/
theorem c4_theorem (h : Nat → Nat) (mr : Nat) (hg : ∀ k, h k < h (k + 1)) :
    (scroll_and_load_comments h mr).round = mr ∧
    (scroll_and_load_comments h mr).stableRounds < 3 ∧
    (scroll_and_expand h mr).round = mr ∧
    (scroll_and_expand h mr).stableRounds < 3 ∧
    (∀ (g : Nat → Nat) (mr' : Nat),
      (scroll_and_load_comments g mr').round ≤ mr' ∧
      (scroll_and_expand g mr').round ≤ mr') := by
  have G3 := scrollLoop_growing 3 h hg mr 0 0
  have G2 := scrollLoop_growing 2 h hg mr 0 0
  refine ⟨?_, ?_, ?_, ?_, ?_⟩
  · show (scrollLoop 3 h mr 0 0 0).round = mr
    omega
  · show (scrollLoop 3 h mr 0 0 0).stableRounds < 3
    omega
  · show (scrollLoop 2 h mr 0 0 0).round = mr
    omega
  · show (scrollLoop 2 h mr 0 0 0).stableRounds < 3
    omega
  · intro g mr'
    have B3 := scrollLoop_round_le 3 g mr' 0 0 0
    have B2 := scrollLoop_round_le 2 g mr' 0 0 0
    exact ⟨by show (scrollLoop 3 g mr' 0 0 0).round ≤ mr'; omega,
      by show (scrollLoop 2 g mr' 0 0 0).round ≤ mr'; omega⟩

/-- Witness for C4 at the strictly growing height evolution `k ↦ k`. -/
theorem c4_witness :
    (scroll_and_load_comments (fun k => k) 7).round = 7 ∧
    (scroll_and_load_comments (fun k => k) 7).stableRounds < 3 ∧
    (scroll_and_expand (fun k => k) 7).round = 7 :=
  ⟨(c4_theorem (fun k => k) 7 fun k => Nat.lt_succ_self k).1,
    (c4_theorem (fun k => k) 7 fun k => Nat.lt_succ_self k).2.1,
    (c4_theorem (fun k => k) 7 fun k => Nat.lt_succ_self k).2.2.1⟩

/-! ## Extractor lemmas -/

theorem firstTierMatch_empty (q : List Char → List Elem) :
    ∀ ss, (∀ s ∈ ss, q s = []) → firstTierMatch q ss = [] := by
  intro ss
  induction ss with
  | nil => intro _; rfl
  | cons s ss ih =>
    intro hall
    simp only [firstTierMatch]
    rw [if_pos (hall s (by simp))]
    exact ih fun t ht => hall t (by simp [ht])

theorem firstTierMatch_first (q : List Char → List Elem) :
    ∀ l1 s l2, (∀ t ∈ l1, q t = []) → q s ≠ [] →
      firstTierMatch q (l1 ++ s :: l2) = q s := by
  intro l1
  induction l1 with
  | nil =>
    intro s l2 _ hs
    simp only [List.nil_append, firstTierMatch]
    rw [if_neg hs]
  | cons t ts ih =>
    intro s l2 hall hs
    simp only [List.cons_append, firstTierMatch]
    rw [if_pos (hall t (by simp))]
    exact ih s l2 (fun u hu => hall u (by simp [hu])) hs

/-! ## Claim C5 -/

/-- C5 — confirmed.  When every Tier-1 selector matches zero elements the
candidate set is the Tier-2 content-signature pool; when the selector list
splits as `l1 ++ s :: l2` with the earlier selectors empty and `s`
non-empty, the candidate set is exactly `q s` and is independent of the
Tier-2 pool (Tier 2 is never consulted). -/
theorem c5_theorem (q : List Char → List Elem) (g : List Elem) :
    ((∀ s ∈ tier1Selectors, q s = []) →
      candidateElements q g = g.filter tier2Keep) ∧
    (∀ l1 s l2, tier1Selectors = l1 ++ s :: l2 → (∀ t ∈ l1, q t = []) →
      q s ≠ [] →
      candidateElements q g = q s ∧ ∀ g', candidateElements q g' = q s) := by
  constructor
  · intro hall
    have hfm := firstTierMatch_empty q tier1Selectors hall
    simp [candidateElements, hfm]
  · intro l1 s l2 heq hall hs
    have hfm : firstTierMatch q tier1Selectors = q s := by
      rw [heq]
      exact firstTierMatch_first q l1 s l2 hall hs
    have main : ∀ g' : List Elem, candidateElements q g' = q s := by
      intro g'
      simp only [candidateElements, hfm]
      rw [if_neg hs]
    exact ⟨main g, main⟩

/-- Witness for C5: a DOM answering only the fourth selector
`.comment-item` adopts exactly its matches, and a DOM answering no selector
falls back to the filtered Tier-2 pool. -/
theorem c5_witness :
    candidateElements
        (fun s => if s = ".comment-item".data
          then [⟨"hello".data, "cls".data⟩] else []) [] =
      [⟨"hello".data, "cls".data⟩] ∧
    candidateElements (fun _ => []) [⟨"a b 点赞 c d".data, "x".data⟩] =
      [⟨"a b 点赞 c d".data, "x".data⟩].filter tier2Keep := by
  constructor
  · have H := (c5_theorem
      (fun s => if s = ".comment-item".data
        then [⟨"hello".data, "cls".data⟩] else []) []).2
      [ "[class*=\"comment\"]".data
      , "[class*=\"Comment\"]".data
      , "[data-testid*=\"comment\"]".data ]
      ".comment-item".data
      [ ".comment-list .comment".data
      , "[class*=\"note-comment\"]".data
      , "[class*=\"NoteComment\"]".data
      , "[class*=\"feed-comment\"]".data
      , "[class*=\"user-comment\"]".data
      , "[class*=\"interaction\"]".data ]
      rfl (by decide) (by decide)
    rw [H.1]
    decide
  · exact (c5_theorem (fun _ => []) _).1 fun s _ => rfl

/-! ## Dedup lemmas -/

theorem dedup_agree {α : Type} (content : α → List Char) :
    ∀ (l : List α) (seen prevKeys : List (List Char)),
      (∀ k, k ∈ seen ↔ (k ∈ prevKeys ∧ 3 < k.length)) →
      dedupLoop content seen l = specDedup content prevKeys l := by
  intro l
  induction l with
  | nil => intro seen prevKeys _; rfl
  | cons r rs ih =>
    intro seen prevKeys hinv
    simp only [dedupLoop, specDedup]
    by_cases hlen : 3 < (content r).length
    · have hkeylen : 3 < ((content r).take 30).length := by
        rw [List.length_take]
        omega
      have hmem : (content r).take 30 ∈ seen ↔ (content r).take 30 ∈ prevKeys := by
        constructor
        · intro hk
          exact ((hinv _).1 hk).1
        · intro hk
          exact (hinv _).2 ⟨hk, hkeylen⟩
      by_cases hkp : (content r).take 30 ∈ prevKeys
      · have hks : (content r).take 30 ∈ seen := hmem.2 hkp
        rw [if_neg fun hc => hc.1 hks, if_neg fun hc => hc.2 hkp]
        refine ih seen ((content r).take 30 :: prevKeys) ?_
        intro k
        constructor
        · intro hk
          have := (hinv k).1 hk
          exact ⟨List.mem_cons_of_mem _ this.1, this.2⟩
        · rintro ⟨hk, hl⟩
          rcases List.mem_cons.1 hk with rfl | hk'
          · exact hks
          · exact (hinv k).2 ⟨hk', hl⟩
      · have hks : (content r).take 30 ∉ seen := fun hk => hkp (hmem.1 hk)
        rw [if_pos ⟨hks, hlen⟩, if_pos ⟨hlen, hkp⟩]
        congr 1
        refine ih ((content r).take 30 :: seen) ((content r).take 30 :: prevKeys) ?_
        intro k
        constructor
        · intro hk
          rcases List.mem_cons.1 hk with rfl | hk'
          · exact ⟨List.mem_cons_self _ _, hkeylen⟩
          · have := (hinv k).1 hk'
            exact ⟨List.mem_cons_of_mem _ this.1, this.2⟩
        · rintro ⟨hk, hl⟩
          rcases List.mem_cons.1 hk with rfl | hk'
          · exact List.mem_cons_self _ _
          · exact List.mem_cons_of_mem _ ((hinv k).2 ⟨hk', hl⟩)
    · have hkeylen : ¬ 3 < ((content r).take 30).length := by
        rw [List.length_take]
        omega
      rw [if_neg fun hc => hlen hc.2, if_neg fun hc => hlen hc.1]
      refine ih seen ((content r).take 30 :: prevKeys) ?_
      intro k
      constructor
      · intro hk
        have := (hinv k).1 hk
        exact ⟨List.mem_cons_of_mem _ this.1, this.2⟩
      · rintro ⟨hk, hl⟩
        rcases List.mem_cons.1 hk with rfl | hk'
        · exact absurd hl hkeylen
        · exact (hinv k).2 ⟨hk', hl⟩

theorem dedupLoop_sublist {α : Type} (content : α → List Char) :
    ∀ (l : List α) (seen : List (List Char)),
      (dedupLoop content seen l).Sublist l := by
  intro l
  induction l with
  | nil => intro seen; simp [dedupLoop]
  | cons r rs ih =>
    intro seen
    simp only [dedupLoop]
    split
    · exact List.Sublist.cons₂ r (ih _)
    · exact List.Sublist.cons r (ih _)

/-! ## Claim C6 -/

/-- C6 — confirmed.  For every record list the dedup loop keeps exactly the
records whose content is longer than 3 and which are the first in traversal
order to bear their first-30-character content key (`specDedup` states the
claim's rule verbatim, tracking the keys of all earlier records), and the
output is a sublist of the input, so first-seen order is preserved. -/
theorem c6_theorem (α : Type) (content : α → List Char) (l : List α) :
    dedupLoop content [] l = specDedup content [] l ∧
    (dedupLoop content [] l).Sublist l :=
  ⟨dedup_agree content l [] [] (by intro k; simp),
    dedupLoop_sublist content l []⟩

/-! ## Claim C1 -/

/-- C1 — counterexample to the claim as stated: on the literal candidate
list the pipeline yields two records, not one, because the dedup keys of
`"Great post! 👍"` and `"Great post! 👍 (dup)"` (their first 30 characters,
i.e. the full strings) differ, so the `(dup)` variant is not collapsed. -/
theorem c1_counterexample :
    extractPipeline
        [ "Great post! 👍".data, "Great post! 👍 (dup)".data
        , "ab".data, "登录".data ] =
      ["Great post! 👍".data, "Great post! 👍 (dup)".data] ∧
    extractPipeline
        [ "Great post! 👍".data, "Great post! 👍 (dup)".data
        , "ab".data, "登录".data ] ≠
      ["Great post! 👍".data] := by
  constructor <;> decide

/-- C1 — amended.  On the literal candidate list the pipeline yields exactly
the two records `"Great post! 👍"` and `"Great post! 👍 (dup)"` in traversal
order (the 2-character text fails the `> 3` length filter, the login-chrome
text is dropped by the per-candidate denylist, and the two remaining
contents have distinct first-30-character keys); an exact duplicate of
`"Great post! 👍"` is collapsed, yielding the single record the claim
expects. -/
theorem c1_theorem :
    extractPipeline
        [ "Great post! 👍".data, "Great post! 👍 (dup)".data
        , "ab".data, "登录".data ] =
      ["Great post! 👍".data, "Great post! 👍 (dup)".data] ∧
    extractPipeline
        [ "Great post! 👍".data, "Great post! 👍".data
        , "ab".data, "登录".data ] =
      ["Great post! 👍".data] := by
  constructor <;> decide

/-! ## Cookie-string lemmas -/

theorem encodePairs_ne_nil :
    ∀ ps : List (List Char × List Char), ps ≠ [] → encodePairs ps ≠ [] := by
  intro ps hne
  match ps with
  | [p] => simp [encodePairs]
  | p :: q :: rest => simp [encodePairs]

theorem splitOn_encodePairs :
    ∀ ps : List (List Char × List Char), ps ≠ [] →
      (∀ p ∈ ps, (∀ c ∈ p.1, c ≠ ';') ∧ (∀ c ∈ p.2, c ≠ ';')) →
      splitOn ';' (encodePairs ps) = ps.map fun p => p.1 ++ '=' :: p.2 := by
  intro ps
  induction ps with
  | nil => intro h; exact absurd rfl h
  | cons p rest ih =>
    intro _ hwf
    have hseg : ∀ c ∈ p.1 ++ '=' :: p.2, c ≠ ';' := by
      intro c hc
      rcases List.mem_append.1 hc with hc1 | hc2
      · exact (hwf p (by simp)).1 c hc1
      · rcases List.mem_cons.1 hc2 with rfl | hc3
        · decide
        · exact (hwf p (by simp)).2 c hc3
    cases rest with
    | nil =>
      simp only [encodePairs, List.map]
      exact splitOn_of_not_mem hseg
    | cons q rs =>
      simp only [encodePairs, List.map]
      rw [splitOn_append hseg, ih (by simp) fun r hr => hwf r (by simp [hr])]
      simp

theorem parse_chain (now : Nat) :
    ∀ ps : List (List Char × List Char),
      (∀ p ∈ ps, p.1 ≠ [] ∧
        (∀ c ∈ p.1, c ≠ ';' ∧ c ≠ '=' ∧ isPySpace c = false) ∧
        (∀ c ∈ p.2, c ≠ ';' ∧ isPySpace c = false)) →
      (((ps.map fun p => p.1 ++ '=' :: p.2).map pyStrip).filter
          (· ≠ [])).filterMap
          (fun pair => (splitFirstEq pair).map
            fun nv => mkStringCookie now (pyStrip nv.1) (pyStrip nv.2)) =
        ps.map fun p => mkStringCookie now p.1 p.2 := by
  intro ps
  induction ps with
  | nil => intro _; rfl
  | cons p rest ih =>
    intro hwf
    have hwfp := hwf p (by simp)
    have hnospace : ∀ c ∈ p.1 ++ '=' :: p.2, isPySpace c = false := by
      intro c hc
      rcases List.mem_append.1 hc with hc1 | hc2
      · exact (hwfp.2.1 c hc1).2.2
      · rcases List.mem_cons.1 hc2 with rfl | hc3
        · decide
        · exact (hwfp.2.2 c hc3).2
    have hstrip : pyStrip (p.1 ++ '=' :: p.2) = p.1 ++ '=' :: p.2 :=
      pyStrip_eq_self hnospace
    have hne : (p.1 ++ '=' :: p.2) ≠ [] := by simp
    have hsplit : splitFirstEq (p.1 ++ '=' :: p.2) = some (p.1, p.2) :=
      splitFirstEq_append fun c hc => (hwfp.2.1 c hc).2.1
    have hstrip1 : pyStrip p.1 = p.1 :=
      pyStrip_eq_self fun c hc => (hwfp.2.1 c hc).2.2
    have hstrip2 : pyStrip p.2 = p.2 :=
      pyStrip_eq_self fun c hc => (hwfp.2.2 c hc).2
    simp only [List.map_cons]
    rw [hstrip, List.filter_cons_of_pos (by simp)]
    simp only [List.filterMap_cons, hsplit, Option.map_some', hstrip1, hstrip2]
    rw [ih fun r hr => hwf r (by simp [hr])]

/-! ## Claim C7 -/

/-- C7 — confirmed.  For every non-empty list of well-formed `name=value`
pairs (names non-empty, no `';'`, `'='` or whitespace in names, no `';'` or
edge whitespace in values — the literal `name=value;name2=value2` shape),
`parse_cookie_string` on the `';'`-joined string returns exactly one cookie
per pair, names and values preserved verbatim, and every cookie carries the
defaults: domain `.xiaohongshu.com`, path `/`, expiry `now + 24h`. -/
theorem c7_theorem (now : Nat) (ps : List (List Char × List Char))
    (hne : ps ≠ [])
    (hwf : ∀ p ∈ ps, p.1 ≠ [] ∧
      (∀ c ∈ p.1, c ≠ ';' ∧ c ≠ '=' ∧ isPySpace c = false) ∧
      (∀ c ∈ p.2, c ≠ ';' ∧ isPySpace c = false)) :
    parse_cookie_string now (encodePairs ps) =
      some (ps.map fun p => mkStringCookie now p.1 p.2) ∧
    (ps.map fun p => mkStringCookie now p.1 p.2).length = ps.length ∧
    ∀ c ∈ ps.map fun p => mkStringCookie now p.1 p.2,
      c.domain = ".xiaohongshu.com".data ∧ c.path = "/".data ∧
      c.expires = now + 24 * 60 * 60 := by
  refine ⟨?_, List.length_map _ _, ?_⟩
  · rw [parse_cookie_string, if_neg (encodePairs_ne_nil ps hne)]
    rw [splitOn_encodePairs ps hne fun p hp =>
      ⟨fun c hc => ((hwf p hp).2.1 c hc).1, fun c hc => ((hwf p hp).2.2 c hc).1⟩]
    rw [parse_chain now ps hwf]
  · intro c hc
    rcases List.mem_map.1 hc with ⟨p, _, rfl⟩
    exact ⟨rfl, rfl, rfl⟩

/-- Witness for C7 at the concrete cookie string `a1=xyz;b=2`. -/
theorem c7_witness :
    parse_cookie_string 1000 (encodePairs
        [("a1".data, "xyz".data), ("b".data, "2".data)]) =
      some [mkStringCookie 1000 "a1".data "xyz".data,
        mkStringCookie 1000 "b".data "2".data] := by
  have := (c7_theorem 1000 [("a1".data, "xyz".data), ("b".data, "2".data)]
    (by decide) (by decide)).1
  simpa using this

/-! ## Claim C8 -/

/-- C8 — counterexample to the claim as stated: a cookie array holding a
structural record with neither `name` nor `value` does not make
`load_cookies` fail — the record is silently skipped and the remaining
valid record is returned, filled with the defaults. -/
theorem c8_counterexample :
    validRecord 1000 (.dict ⟨none, none, none, none, none, none⟩) = none ∧
    load_cookies_list 1000
        [ .dict ⟨none, none, none, none, none, none⟩
        , .dict ⟨some "a1".data, some "xyz".data, none, none, none, none⟩ ] =
      some [⟨some "a1".data, some "xyz".data, some ".xiaohongshu.com".data,
        some "/".data, some (1000 + 24 * 60 * 60), none⟩] := by
  constructor <;> rfl

/-- C8 — amended.  On every non-empty decoded cookie array `load_cookies`
succeeds, returning exactly the defaults-filled well-formed records (those
that are dicts with both `name` and `value`); malformed records are
silently omitted, no error of any kind is produced, and the output is never
longer than the input. -/
theorem c8_theorem (now : Nat) (records : List RawRecord)
    (hne : records ≠ []) :
    load_cookies_list now records =
      some (records.filterMap (validRecord now)) ∧
    ∀ out, load_cookies_list now records = some out →
      out.length ≤ records.length := by
  have hloop : ∀ rs : List RawRecord,
      validateLoop now rs = rs.filterMap (validRecord now) := by
    intro rs
    induction rs with
    | nil => rfl
    | cons r rs ih =>
      simp only [validateLoop, List.filterMap_cons]
      cases validRecord now r with
      | none => exact ih
      | some d => rw [ih]
  constructor
  · rw [load_cookies_list, if_neg hne, hloop]
  · intro out hout
    rw [load_cookies_list, if_neg hne, hloop] at hout
    cases hout
    exact List.length_filterMap_le _ _

/-- Witness for C8's amended theorem on a concrete one-record array. -/
theorem c8_witness :
    load_cookies_list 5 [RawRecord.nondict] = some [] := by
  have := (c8_theorem 5 [RawRecord.nondict] (by simp)).1
  simpa using this

/-! ## Claim C9 -/

/-- C9 — counterexample to the claim as stated: when the second height read
raises, the exception escapes the scroll loop and `scrape_comments`' only
handler returns `[]` — the extractor never runs, even though extraction on
the DOM state at hand-off would have produced a record. -/
theorem c9_counterexample :
    scrape_comments (fun k => if k = 0 then some 100 else none) 20
        ["This comment survives!".data] = [] ∧
    extractPipeline ["This comment survives!".data] =
      ["This comment survives!".data] := by
  constructor <;> rfl

/-- C9 — amended.  An exception while reading the height or scrolling makes
the whole scrape return `[]`, skipping extraction; only when the scroll
phase completes without an exception does the extractor run on the final
DOM state. -/
theorem c9_theorem (h : Nat → Option Nat) (mr : Nat)
    (dom : List (List Char)) :
    (∀ e, scrollLoopE 3 h mr 0 0 0 = .error e →
      scrape_comments h mr dom = []) ∧
    (∀ st, scrollLoopE 3 h mr 0 0 0 = .ok st →
      scrape_comments h mr dom = extractPipeline dom) := by
  constructor
  · intro e he
    rw [scrape_comments, he]
  · intro st hst
    rw [scrape_comments, hst]

/-- Witness for C9's amended theorem: a failing second read yields `[]`,
and a fully successful constant-height run yields the extraction result. -/
theorem c9_witness :
    scrape_comments (fun k => if k = 0 then some 100 else none) 20
        ["hi there".data] = [] ∧
    scrape_comments (fun _ => some 50) 20 ["hi there".data] =
      extractPipeline ["hi there".data] :=
  ⟨(c9_theorem (fun k => if k = 0 then some 100 else none) 20
      ["hi there".data]).1 () rfl,
    (c9_theorem (fun _ => some 50) 20 ["hi there".data]).2 ⟨50, 3, 4⟩ rfl⟩

/-! ## Claim C10 -/

/-- C10 — confirmed.  For every split URL and every accepted format
argument (`jpg`, `png` or `jpeg` in any letter case), `convert_url`
succeeds and only the query component differs: the scheme, network
location, path (including any `'!'`-style segment, which is read but never
written) and fragment of the result equal those of the input. -/
theorem c10_theorem (u : UrlSplit) (fmt : List Char)
    (filename : Option (List Char))
    (hfmt : fmt.map Char.toLower = "jpg".data ∨
      fmt.map Char.toLower = "png".data ∨
      fmt.map Char.toLower = "jpeg".data) :
    ∃ r, convert_url u fmt filename = .ok r ∧ r.scheme = u.scheme ∧
      r.netloc = u.netloc ∧ r.path = u.path ∧ r.fragment = u.fragment := by
  have hn : ∃ f, normalize_fmt fmt = .ok f := by
    rcases hfmt with hc | hc | hc <;>
      · rw [normalize_fmt, hc]
        exact ⟨_, rfl⟩
  obtain ⟨f, hf⟩ := hn
  simp only [convert_url, hf]
  exact ⟨_, rfl, rfl, rfl, rfl, rfl⟩

/-- Witness for C10 at a concrete image URL (style segment in the path) and
the format `"JPEG"` in upper case. -/
theorem c10_witness :
    ∃ r, convert_url
        ⟨"https".data, "sns-webpic-qc.xhscdn.com".data,
          "/notes_pre_post/1040g3k0!nd_dft_wlteh_jpg_3".data, [], []⟩
        "JPEG".data none = .ok r ∧
      r.scheme = "https".data ∧
      r.netloc = "sns-webpic-qc.xhscdn.com".data ∧
      r.path = "/notes_pre_post/1040g3k0!nd_dft_wlteh_jpg_3".data ∧
      r.fragment = ([] : List Char) :=
  c10_theorem
    ⟨"https".data, "sns-webpic-qc.xhscdn.com".data,
      "/notes_pre_post/1040g3k0!nd_dft_wlteh_jpg_3".data, [], []⟩
    "JPEG".data none (Or.inr (Or.inr (by decide)))

end XHS
